import Mathlib

/-!
Shallow embedding of the safe-apply pipeline of the Vibe_CodeGen repository
(src/merge/mod.rs, src/plan/mod.rs, src/safety/mod.rs, src/apply/mod.rs,
src/exec/mod.rs, src/patch/mod.rs), together with theorems settling the
claims about it.

Texts are modelled as lists of characters (`Text := List Char`); Rust string
primitives (`str::lines`, `join`, `contains`, `trim`, ...) are re-implemented
on that representation following their documented semantics.  Byte lengths
use UTF-8 character sizes, as Rust's `as_bytes().len()` does.
-/

namespace Vibe

/-- A text is a list of characters (the contents of a Rust `String`). -/
abbrev Text : Type := List Char

/-- Embed a Lean string literal as a `Text`. -/
def str (s : String) : Text := s.data

/-- `startsWithL pre l` : does `l` start with `pre`?  (Rust `str::starts_with`,
`Path::starts_with` on component lists.) -/
def startsWithL {α : Type} [DecidableEq α] : List α → List α → Bool
  | [], _ => true
  | _ :: _, [] => false
  | a :: as, b :: bs => a = b && startsWithL as bs

/-- `endsWithT l suf` : does `l` end with `suf`?  (Rust `str::ends_with`.) -/
def endsWithT (l suf : Text) : Bool := startsWithL suf.reverse l.reverse

/-- `hasSub l pat` : does `pat` occur as a contiguous substring of `l`?
(Rust `str::contains`.) -/
def hasSub : Text → Text → Bool
  | l, pat =>
    startsWithL pat l ||
      match l with
      | [] => false
      | _ :: rest => hasSub rest pat

/-- ASCII-level model of Rust `str::to_lowercase`. -/
def lowerT (t : Text) : Text := t.map Char.toLower

/-- Remove all leading occurrences of `c` (Rust `str::trim_start_matches(c)`). -/
def dropAllLeading (c : Char) (t : Text) : Text := t.dropWhile (· = c)

/-- Remove all trailing occurrences of `c` (Rust `str::trim_end_matches(c)`). -/
def dropAllTrailing (c : Char) (t : Text) : Text :=
  (t.reverse.dropWhile (· = c)).reverse

/-- Rust `str::trim` (ASCII whitespace model). -/
def rustTrim (t : Text) : Text :=
  ((t.dropWhile Char.isWhitespace).reverse.dropWhile Char.isWhitespace).reverse

/-- Split a text at every newline character; always returns at least one
(possibly empty) piece, like Rust `str::split('\n')`. -/
def splitNl : Text → List Text
  | [] => [[]]
  | c :: cs =>
    if c = '\n' then [] :: splitNl cs
    else
      match splitNl cs with
      | [] => [[c]]
      | p :: ps => (c :: p) :: ps

/-- Rust `str::split_terminator('\n')`: like `splitNl` but a final empty piece
(produced by a trailing newline or an empty input) is dropped. -/
def splitTermNl (t : Text) : List Text :=
  let ps := splitNl t
  if ps.getLast? = some [] then ps.dropLast else ps

/-- Strip one trailing carriage return (the `\r` of a `\r\n` line ending). -/
def stripCr (l : Text) : Text :=
  match l.getLast? with
  | some c => if c = '\r' then l.dropLast else l
  | none => l

/-- Rust `str::lines()`: split at `\n` terminators and strip a trailing `\r`
from each line. -/
def rustLines (t : Text) : List Text := (splitTermNl t).map stripCr

/-- Join lines with `\n` (Rust `Vec::join("\n")`: the pieces separated by a
single newline, no trailing separator). -/
def joinNl : List Text → Text
  | [] => []
  | [l] => l
  | l :: rest => l ++ '\n' :: joinNl rest

/-- UTF-8 byte length of a text (Rust `str::as_bytes().len()`). -/
def byteLen (t : Text) : Nat := (t.map Char.utf8Size).sum

/-! ## merge module (src/merge/mod.rs) -/

/-- Keyword lists of `is_additive_task`. -/
def addKw : List Text :=
  [str "add", str "append", str "insert", str "another", str "extra",
   str "include", str "augment"]

def destructiveKw : List Text :=
  [str "remove", str "delete", str "replace", str "overwrite", str "rewrite",
   str "refactor", str "rework"]

/-- `merge::is_additive_task`. -/
def is_additive_task (task : Text) : Bool :=
  let t := lowerT task
  addKw.any (fun k => hasSub t k) && !(destructiveKw.any (fun k => hasSub t k))

/-- The four recognized `use client` directive spellings (built from chars to
keep the quote characters explicit). -/
def ucQuote : Char := '\''

def ucPlain : Text := ucQuote :: (str "use client" ++ [ucQuote])

def ucPlainD : Text := str "\"use client\""

def ucSemi : Text := ucPlain ++ [';']

def ucSemiD : Text := ucPlainD ++ [';']

/-- Loop body of `has_use_client_top` over the first (at most 10) lines. -/
def hucGo : List Text → Bool
  | [] => false
  | line :: rest =>
    let l := rustTrim (dropAllLeading '\uFEFF' line)
    if l = ([] : Text) then hucGo rest
    else if startsWithL (str "//") l then hucGo rest
    else if startsWithL (str "/*") l then hucGo rest
    else if startsWithL (str "import ") l then false
    else if l = ucPlain ∨ l = ucPlainD ∨ l = ucSemi ∨ l = ucSemiD then true
    else false

/-- `merge::has_use_client_top`. -/
def has_use_client_top (src : Text) : Bool := hucGo ((rustLines src).take 10)

/-- `merge::preserve_use_client`. -/
def preserve_use_client (old : Option Text) (new_content : Text) (task : Text) :
    Text :=
  let wantsRemoval :=
    let t := lowerT task
    hasSub t (str "remove " ++ ucPlain) || hasSub t (str "remove use client")
  if wantsRemoval then new_content
  else
    match old with
    | some old_src =>
      if has_use_client_top old_src && !(has_use_client_top new_content) then
        ucPlain ++ str "\n\n" ++ dropAllLeading '\uFEFF' new_content
      else new_content
    | none => new_content

/-- Fuel-indexed longest-common-subsequence length; with fuel at least the
combined length it computes the `dp` table entry of `additive_merge`:
`lcsLen (a.drop i) (b.drop j)` is `dp[i][j]`.  (Fuel makes the recursion
structural so that the kernel can evaluate it; each call strictly decreases
the combined length, so the fuel used below never runs out.) -/
def lcsLenF : Nat → List Text → List Text → Nat
  | _, [], _ => 0
  | _, _ :: _, [] => 0
  | 0, _, _ => 0
  | f + 1, x :: as, y :: bs =>
    if x = y then 1 + lcsLenF f as bs
    else max (lcsLenF f as (y :: bs)) (lcsLenF f (x :: as) bs)

/-- `dp[i][j]` of `additive_merge` for the suffix lists. -/
def lcsLen (as bs : List Text) : Nat := lcsLenF (as.length + bs.length) as bs

/-- Fuel-indexed cursor walk of `additive_merge` (the `while` loop plus the
two tail loops): on a match emit the shared line; otherwise keep the old line
when doing so preserves at least as long a downstream match (`dp[i+1][j] >=
dp[i][j+1]`), else emit the new line.  The fuel-exhaustion branch (never
reached with the fuel used below) returns the remaining old lines. -/
def mergeWalkF : Nat → List Text → List Text → List Text
  | _, [], bs => bs
  | _, a :: as, [] => a :: as
  | 0, as, _ => as
  | f + 1, x :: as, y :: bs =>
    if x = y then x :: mergeWalkF f as bs
    else if lcsLen (x :: as) bs ≤ lcsLen as (y :: bs) then
      x :: mergeWalkF f as (y :: bs)
    else y :: mergeWalkF f (x :: as) bs

/-- The cursor walk of `additive_merge` with sufficient fuel. -/
def mergeWalk (as bs : List Text) : List Text :=
  mergeWalkF (as.length + bs.length) as bs

/-- The final cleanup pass of `additive_merge`: collapse immediately-adjacent
duplicate lines. -/
def collapseDups : List Text → List Text
  | [] => []
  | [x] => [x]
  | x :: y :: rest =>
    if x = y then collapseDups (y :: rest) else x :: collapseDups (y :: rest)

/-- `merge::additive_merge`: line-based LCS walk keeping every original line,
then adjacent-duplicate collapse, then join with `\n`. -/
def additive_merge (old new_content : Text) : Text :=
  joinNl (collapseDups (mergeWalk (rustLines old) (rustLines new_content)))

/-! ## wire data model (src/wire/mod.rs) -/

/-- `wire::Step`: the five-variant step union.  Field order follows the Rust
declaration (`id`, `title`, `path`, then per-variant payload). -/
inductive Step where
  | create (id title path : Text) (language : Option Text) (content : Option Text)
  | update (id title path : Text) (patch : Option Text) (content : Option Text)
  | delete (id title path : Text)
  | command (id title : Text) (cmd : Text) (cwd : Option Text)
  | test (id title : Text) (cmd : Text)
deriving DecidableEq, Repr

/-- `wire::Plan`. -/
structure Plan where
  summary : Text
  steps : List Step
deriving DecidableEq, Repr

/-! ## plan sanitizer (src/plan/mod.rs) -/

/-- First lookup of a key in an association list (`HashMap::get`; only `get`
and `insert` are used by `sanitize`, for which an association list is an
exact model). -/
def aGet (m : List (Text × Nat)) (k : Text) : Option Nat :=
  match m with
  | [] => none
  | (k', v) :: rest => if k' = k then some v else aGet rest k

/-- Insert-or-replace in an association list (`HashMap::insert`). -/
def aPut (m : List (Text × Nat)) (k : Text) (v : Nat) : List (Text × Nat) :=
  match m with
  | [] => [(k, v)]
  | (k', v') :: rest => if k' = k then (k, v) :: rest else (k', v') :: aPut rest k v

/-- Warning emitted for an `Update` with neither `content` nor `patch`. -/
def warnNoContent (path : Text) : Text :=
  str "dropped update for " ++ path ++ str " (no content or patch)"

/-- Warning emitted for a dropped duplicate `Update`. -/
def warnDupUpdate (path : Text) : Text :=
  str "dropped duplicate update for " ++ path

/-- Warning emitted for a dropped duplicate `Create`. -/
def warnDupCreate (path : Text) : Text :=
  str "dropped duplicate create for " ++ path

/-- Warning emitted for a dropped duplicate `Delete`. -/
def warnDupDelete (path : Text) : Text :=
  str "dropped duplicate delete for " ++ path

/-- Does the indexed step of the original list carry `content`?  (The
`matches!(&plan.steps[*prev_idx], Step::Update { content: Some(_), .. })`
check of `sanitize`'s first pass.) -/
def idxHasContent (all : List Step) (i : Nat) : Bool :=
  match all.get? i with
  | some (.update _ _ _ _ (some _)) => true
  | _ => false

/-- First pass of `plan::sanitize`: collect the winning `Update` index per
path (earliest valid update, replaced only by a later one that carries
`content` when the stored one does not), warning on content-less updates. -/
def sanitizePass1 (all : List Step) :
    List Step → Nat → List (Text × Nat) → List Text →
      List (Text × Nat) × List Text
  | [], _, best, ws => (best, ws)
  | s :: rest, idx, best, ws =>
    match s with
    | .update _ _ path patch content =>
      if content = none ∧ patch = none then
        sanitizePass1 all rest (idx + 1) best (ws ++ [warnNoContent path])
      else
        match aGet best path with
        | none => sanitizePass1 all rest (idx + 1) (aPut best path idx) ws
        | some prev =>
          if content.isSome && !(idxHasContent all prev) then
            sanitizePass1 all rest (idx + 1) (aPut best path idx) ws
          else
            sanitizePass1 all rest (idx + 1) best ws
    | _ => sanitizePass1 all rest (idx + 1) best ws

/-- Second pass of `plan::sanitize`: rebuild the step list in order, keeping
the winning update per path, the first create/delete per path, and all
command/test steps; every dropped update gets a duplicate-update warning. -/
def sanitizePass2 (best : List (Text × Nat)) :
    List Step → Nat → List Text → List Text → List Step → List Text →
      List Step × List Text
  | [], _, _, _, out, ws => (out, ws)
  | s :: rest, idx, seenC, seenD, out, ws =>
    match s with
    | .update _ _ path patch content =>
      let keep :=
        if content = none ∧ patch = none then false
        else ((aGet best path).getD idx) = idx
      if keep then
        sanitizePass2 best rest (idx + 1) seenC seenD (out ++ [s]) ws
      else
        sanitizePass2 best rest (idx + 1) seenC seenD out
          (ws ++ [warnDupUpdate path])
    | .create _ _ path _ _ =>
      if path ∈ seenC then
        sanitizePass2 best rest (idx + 1) seenC seenD out
          (ws ++ [warnDupCreate path])
      else
        sanitizePass2 best rest (idx + 1) (seenC ++ [path]) seenD
          (out ++ [s]) ws
    | .delete _ _ path =>
      if path ∈ seenD then
        sanitizePass2 best rest (idx + 1) seenC seenD out
          (ws ++ [warnDupDelete path])
      else
        sanitizePass2 best rest (idx + 1) seenC (seenD ++ [path])
          (out ++ [s]) ws
    | _ => sanitizePass2 best rest (idx + 1) seenC seenD (out ++ [s]) ws

/-- `plan::sanitize`: dedupe/filter a plan, returning the cleaned plan and
the warnings of both passes in emission order. -/
def sanitize (plan : Plan) : Plan × List Text :=
  let p1 := sanitizePass1 plan.steps plan.steps 0 [] []
  let p2 := sanitizePass2 p1.1 plan.steps 0 [] [] [] p1.2
  (⟨plan.summary, p2.1⟩, p2.2)

/-! ## safety module (src/safety/mod.rs) -/

/-- `safety::is_command_allowed`: exact membership in the allowlist. -/
def is_command_allowed (cmd : Text) (allowlist : List Text) : Bool :=
  allowlist.any (fun c => c = cmd)

/-! ## path resolution (src/apply/mod.rs `safe_join`)

Paths follow the Unix `std::path` semantics: an absolute path is a list of
normal components hanging under the root `/`; `Path::components()` of a
relative path string splits at `/`, drops empty segments, keeps a leading
`.` as `CurDir`, normalizes away interior `.`, and maps `..` to `ParentDir`.
Windows drive prefixes are outside this model. -/

/-- An absolute path, as its list of components under `/`. -/
abbrev AbsPath : Type := List Text

/-- One component of a relative path (`std::path::Component`, Unix). -/
inductive RComp where
  | rootDir
  | curDir
  | parentDir
  | normal (seg : Text)
deriving DecidableEq, Repr

/-- Split a text at a separator character (all pieces, possibly empty). -/
def splitOnChar (sep : Char) : Text → List Text
  | [] => [[]]
  | c :: cs =>
    if c = sep then [] :: splitOnChar sep cs
    else
      match splitOnChar sep cs with
      | [] => [[c]]
      | p :: ps => (c :: p) :: ps

/-- Body segments of `Path::components()`: empty segments dropped, `.` kept
only as the first component, `..` mapped to `ParentDir`. -/
def segsToComps : List Text → Bool → List RComp
  | [], _ => []
  | s :: rest, first =>
    if s = str "." then
      (if first then [RComp.curDir] else []) ++ segsToComps rest false
    else if s = str ".." then
      RComp.parentDir :: segsToComps rest false
    else
      RComp.normal s :: segsToComps rest false

/-- `Path::new(rel).components()` for a Unix path string. -/
def parseRel (rel : Text) : List RComp :=
  let segs := (splitOnChar '/' rel).filter (fun s => s ≠ ([] : Text))
  if startsWithL (str "/") rel then RComp.rootDir :: segsToComps segs false
  else segsToComps segs true

/-- Errors of `safe_join` (the Rust code returns `anyhow` string errors; the
two distinct messages are modelled as constructors). -/
inductive PathErr where
  | notAllowed (rel : Text)
  | escapes (rel : Text)
deriving DecidableEq, Repr

/-- Decidable equality for `Except` results (needed to evaluate concrete runs
of the fallible operations by `decide`). -/
def exceptDecEq {ε α : Type} [DecidableEq ε] [DecidableEq α] :
    DecidableEq (Except ε α)
  | .error e, .error f =>
    if h : e = f then .isTrue (by rw [h])
    else .isFalse (by intro c; injection c; exact h (by assumption))
  | .error _, .ok _ => .isFalse (by intro c; injection c)
  | .ok _, .error _ => .isFalse (by intro c; injection c)
  | .ok a, .ok b =>
    if h : a = b then .isTrue (by rw [h])
    else .isFalse (by intro c; injection c; exact h (by assumption))

instance {ε α : Type} [DecidableEq ε] [DecidableEq α] :
    DecidableEq (Except ε α) := exceptDecEq

/-- The component walk of `safe_join`: `out` starts at the resolved root; a
`..` pops one segment only after checking that `out` still starts with the
root and has a parent; root-anchored components are rejected outright. -/
def safeJoinWalk (root_abs : AbsPath) (rel : Text) :
    AbsPath → List RComp → Except PathErr AbsPath
  | out, [] => .ok out
  | out, c :: cs =>
    match c with
    | .rootDir => .error (.escapes rel)
    | .curDir => safeJoinWalk root_abs rel out cs
    | .parentDir =>
      if startsWithL root_abs out = false then .error (.escapes rel)
      else if out = ([] : AbsPath) then .error (.escapes rel)
      else safeJoinWalk root_abs rel out.dropLast cs
    | .normal seg => safeJoinWalk root_abs rel (out ++ [seg]) cs

/-- `apply::safe_join`: allowlist gate (exact match or raw string prefix
after trimming trailing separators from the allowlist entry), lexical
component walk from the resolved absolute root, and the final invariant
check that the result still starts with the root.  The resolution of `root`
against the current directory (`canonicalize` with a lexical fallback) is
modelled by taking the resolved root `root_abs` as the argument. -/
def safe_join (root_abs : AbsPath) (rel : Text) (allowlist : List Text) :
    Except PathErr AbsPath :=
  let allowed := allowlist.any (fun p =>
    p = rel ||
      startsWithL (dropAllTrailing '\\' (dropAllTrailing '/' p)) rel)
  if allowed = false then .error (.notAllowed rel)
  else
    match safeJoinWalk root_abs rel root_abs (parseRel rel) with
    | .error e => .error e
    | .ok out =>
      if startsWithL root_abs out then .ok out else .error (.escapes rel)

/-! ## executor (src/exec/mod.rs)

Process spawning and wall-clock time are modelled by an oracle `ExecEnv`
supplying the outcome of a direct spawn (`Command::output()`) and of the
shell fallback (`sh -lc`), including the wall-clock duration the run took.
The executor itself is the deterministic logic around that oracle. -/

/-- `config::Config`, restricted to the fields the embedded core reads
(`root`, `timeout_secs`, `path_allowlist`, `command_allowlist`); the
provider/UX fields are never consumed by the functions modelled here. -/
structure Config where
  root : Text
  timeout_secs : Nat
  path_allowlist : List Text
  command_allowlist : List Text
deriving DecidableEq, Repr

/-- `exec::CmdResult`. -/
structure CmdResult where
  command : Text
  cwd : Option Text
  status : Int
  status_code : Int
  stdout : Text
  stderr : Text
  duration_ms : Nat
  via_shell_fallback : Bool
deriving DecidableEq, Repr

/-- What one `Command::output()` call produced: exit code (`None` when killed
by a signal), the `status.success()` flag, captured output, and the
wall-clock duration of the run in milliseconds. -/
structure ProcOutput where
  exitCode : Option Int
  success : Bool
  stdout : Text
  stderr : Text
  durationMs : Nat
deriving DecidableEq, Repr

/-- Outcome of attempting to spawn: ran to completion, program not found
(`ErrorKind::NotFound`, triggering the shell fallback), or another spawn
error. -/
inductive SpawnOut where
  | ok (out : ProcOutput)
  | notFound
  | otherErr
deriving DecidableEq, Repr

/-- The process boundary: `direct program args cwd` models
`Command::new(program).args(args).current_dir(cwd).output()`, and
`shell cmdStr cwd` models the `sh -lc cmdStr` fallback. -/
structure ExecEnv where
  direct : Text → List Text → Text → SpawnOut
  shell : Text → Text → SpawnOut

/-- Errors of `run_command_allowlisted` (the distinct `anyhow!` sites as
constructors; note there is no timeout constructor — the function has
none). -/
inductive CmdErr where
  | notAllowlisted (cmd : Text) (allowlist : List Text)
  | emptyCommand
  | spawnFailed (cmd : Text)
  | shellFallbackFailed (cmd : Text)
  | nonZeroExit (code : Int) (stdout stderr : Text)
deriving DecidableEq, Repr

/-- `exec::split_cmdline` accumulator loop: shell-like splitting respecting
single and double quotes. -/
def splitCmdGo : Text → List Text → Text → Option Char → List Text
  | [], out, buf, _ => if buf = ([] : Text) then out else out ++ [buf]
  | c :: cs, out, buf, inQ =>
    match inQ with
    | some q =>
      if c = q then splitCmdGo cs out buf none
      else splitCmdGo cs out (buf ++ [c]) inQ
    | none =>
      if c = '"' then splitCmdGo cs out buf (some '"')
      else if c = ucQuote then splitCmdGo cs out buf (some ucQuote)
      else if c.isWhitespace then
        if buf = ([] : Text) then splitCmdGo cs out [] none
        else splitCmdGo cs (out ++ [buf]) [] none
      else splitCmdGo cs out (buf ++ [c]) none

/-- `exec::split_cmdline`. -/
def split_cmdline (s : Text) : List Text := splitCmdGo s [] [] none

/-- `PathBuf::join` on Unix path strings: an absolute right side replaces the
left; otherwise append with a separator when one is missing. -/
def pathJoin (root rel : Text) : Text :=
  if startsWithL (str "/") rel then rel
  else if root = ([] : Text) then rel
  else if endsWithT root (str "/") then root ++ rel
  else root ++ str "/" ++ rel

/-- Assemble the `CmdResult` and apply the final non-zero-status check of
`run_command_allowlisted`. -/
def finishCmd (cmd_str cwd_disp : Text) (out : ProcOutput) (viaShell : Bool) :
    Except CmdErr CmdResult :=
  let code := out.exitCode.getD (if out.success then 0 else -1)
  if code ≠ 0 then .error (.nonZeroExit code out.stdout out.stderr)
  else .ok ⟨cmd_str, some cwd_disp, code, code, out.stdout, out.stderr,
    out.durationMs, viaShell⟩

/-- `exec::run_command_allowlisted`: exact allowlist gate, working-directory
resolution under `cfg.root`, quote-aware command splitting, direct spawn with
a one-shot shell fallback on `NotFound`, and a non-zero exit surfaced as an
error.  As in the source, the timeout argument is accepted for API
compatibility and never read. -/
def run_command_allowlisted (env : ExecEnv) (cmd_str : Text) (cfg : Config)
    (cwd_opt : Option Text) (_timeout_secs : Nat) : Except CmdErr CmdResult :=
  if (cfg.command_allowlist.any (fun c => c = cmd_str)) = false then
    .error (.notAllowlisted cmd_str cfg.command_allowlist)
  else
    let cwd_path :=
      match cwd_opt with
      | some rel =>
        if rustTrim rel ≠ ([] : Text) then pathJoin cfg.root rel else cfg.root
      | none => cfg.root
    match split_cmdline cmd_str with
    | [] => .error .emptyCommand
    | program :: args =>
      match env.direct program args cwd_path with
      | .ok out => finishCmd cmd_str cwd_path out false
      | .notFound =>
        match env.shell cmd_str cwd_path with
        | .ok out => finishCmd cmd_str cwd_path out true
        | _ => .error (.shellFallbackFailed cmd_str)
      | .otherErr => .error (.spawnFailed cmd_str)

/-! ## applier (src/apply/mod.rs)

The filesystem is a finite map from absolute paths to file contents,
modelled as an association list; only the applier's own writes are visible
in it (a spawned command's side effects on disk are outside the model).
`write_atomic`'s temp-file-then-rename collapses to a single binding update,
and its `create_dir_all` is a no-op in the flat map. -/

/-- The modelled filesystem. -/
abbrev FS : Type := List (AbsPath × Text)

/-- Read a file (`None` when absent). -/
def fsGet (fs : FS) (p : AbsPath) : Option Text :=
  match fs with
  | [] => none
  | (q, c) :: rest => if q = p then some c else fsGet rest p

/-- Write (insert or overwrite) a file. -/
def fsPut (fs : FS) (p : AbsPath) (c : Text) : FS :=
  match fs with
  | [] => [(p, c)]
  | (q, c') :: rest => if q = p then (p, c) :: rest else (q, c') :: fsPut rest p c

/-- Remove a file if present (`fs::remove_file`). -/
def fsDel (fs : FS) (p : AbsPath) : FS :=
  match fs with
  | [] => []
  | (q, c) :: rest => if q = p then rest else (q, c) :: fsDel rest p

/-- The trailing-newline hygiene rule of `write_atomic`: append a `\n` when
the contents do not already end with one. -/
def ensureNl (contents : Text) : Text :=
  if endsWithT contents (str "\n") then contents else contents ++ str "\n"

/-- `apply::write_atomic` as observed through the filesystem map. -/
def write_atomic (fs : FS) (path : AbsPath) (contents : Text) : FS :=
  fsPut fs path (ensureNl contents)

/-- `apply::ApplySummary`. -/
structure ApplySummary where
  created : Nat
  updated : Nat
  deleted : Nat
  commands : Nat
  tests : Nat
  skipped : Nat
  bytes : Nat
  command_outputs : List CmdResult
deriving DecidableEq, Repr

/-- The all-zero starting summary (`ApplySummary::default`). -/
def emptySummary : ApplySummary := ⟨0, 0, 0, 0, 0, 0, 0, []⟩

def bumpCreated (s : ApplySummary) (b : Nat) : ApplySummary :=
  ⟨s.created + 1, s.updated, s.deleted, s.commands, s.tests, s.skipped,
   s.bytes + b, s.command_outputs⟩

def bumpUpdated (s : ApplySummary) (b : Nat) : ApplySummary :=
  ⟨s.created, s.updated + 1, s.deleted, s.commands, s.tests, s.skipped,
   s.bytes + b, s.command_outputs⟩

def bumpDeleted (s : ApplySummary) : ApplySummary :=
  ⟨s.created, s.updated, s.deleted + 1, s.commands, s.tests, s.skipped,
   s.bytes, s.command_outputs⟩

def bumpCommands (s : ApplySummary) : ApplySummary :=
  ⟨s.created, s.updated, s.deleted, s.commands + 1, s.tests, s.skipped,
   s.bytes, s.command_outputs⟩

def bumpTests (s : ApplySummary) : ApplySummary :=
  ⟨s.created, s.updated, s.deleted, s.commands, s.tests + 1, s.skipped,
   s.bytes, s.command_outputs⟩

def bumpSkipped (s : ApplySummary) : ApplySummary :=
  ⟨s.created, s.updated, s.deleted, s.commands, s.tests, s.skipped + 1,
   s.bytes, s.command_outputs⟩

def pushOutput (s : ApplySummary) (r : CmdResult) : ApplySummary :=
  ⟨s.created, s.updated, s.deleted, s.commands, s.tests, s.skipped,
   s.bytes, s.command_outputs ++ [r]⟩

/-- Errors of `apply_steps` (each `with_context` site as a constructor
wrapping the underlying error). -/
inductive ApplyErr where
  | createRejected (path : Text) (e : PathErr)
  | createMissingContent (path : Text)
  | updateRejected (path : Text) (e : PathErr)
  | deleteRejected (path : Text) (e : PathErr)
  | commandFailed (cmd : Text) (e : CmdErr)
  | testFailed (cmd : Text) (e : CmdErr)
deriving DecidableEq, Repr

/-- The dry-run placeholder `CmdResult` for Command steps. -/
def placeholderCmd (cmd : Text) (cwd : Option Text) : CmdResult :=
  ⟨cmd, some (cwd.getD (str ".")), 0, 0, [], [], 0, false⟩

/-- One iteration of the `apply_steps` loop. -/
def applyStep (env : ExecEnv) (root_abs : AbsPath) (dry_run : Bool)
    (cfg : Config) (task : Text) (acc : ApplySummary × FS) (s : Step) :
    Except ApplyErr (ApplySummary × FS) :=
  match s with
  | .create _ _ path _ content =>
    match safe_join root_abs path cfg.path_allowlist with
    | .error e => .error (.createRejected path e)
    | .ok abs =>
      match content with
      | none => .error (.createMissingContent path)
      | some data =>
        if dry_run then .ok (bumpCreated acc.1 (byteLen data), acc.2)
        else .ok (bumpCreated acc.1 (byteLen data), write_atomic acc.2 abs data)
  | .update _ _ path patch content =>
    match safe_join root_abs path cfg.path_allowlist with
    | .error e => .error (.updateRejected path e)
    | .ok abs =>
      if content = none ∧ patch = none then .ok (bumpSkipped acc.1, acc.2)
      else
        match content with
        | some new_content =>
          if (fsGet acc.2 abs).isSome then
            let old := (fsGet acc.2 abs).getD []
            let preserved := preserve_use_client (some old) new_content task
            let looks_additive := is_additive_task task &&
              (endsWithT path (str ".tsx") || endsWithT path (str ".ts") ||
                endsWithT path (str ".js"))
            let final_content :=
              if looks_additive then additive_merge old preserved else preserved
            if dry_run then .ok (bumpUpdated acc.1 (byteLen final_content), acc.2)
            else
              .ok (bumpUpdated acc.1 (byteLen final_content),
                write_atomic acc.2 abs final_content)
          else
            if dry_run then .ok (bumpCreated acc.1 (byteLen new_content), acc.2)
            else
              .ok (bumpCreated acc.1 (byteLen new_content),
                write_atomic acc.2 abs new_content)
        | none => .ok (bumpSkipped acc.1, acc.2)
  | .delete _ _ path =>
    match safe_join root_abs path cfg.path_allowlist with
    | .error e => .error (.deleteRejected path e)
    | .ok abs =>
      if (fsGet acc.2 abs).isSome then
        if dry_run then .ok (bumpDeleted acc.1, acc.2)
        else .ok (bumpDeleted acc.1, fsDel acc.2 abs)
      else .ok (bumpSkipped acc.1, acc.2)
  | .command _ _ cmd cwdOpt =>
    let s1 := bumpCommands acc.1
    if dry_run then .ok (pushOutput s1 (placeholderCmd cmd cwdOpt), acc.2)
    else
      match run_command_allowlisted env cmd cfg cwdOpt cfg.timeout_secs with
      | .error e => .error (.commandFailed cmd e)
      | .ok res => .ok (pushOutput s1 res, acc.2)
  | .test _ _ cmd =>
    let s1 := bumpTests acc.1
    if dry_run then .ok (pushOutput s1 (placeholderCmd cmd none), acc.2)
    else if cfg.command_allowlist.any (fun c => c = cmd) then
      match run_command_allowlisted env cmd cfg none cfg.timeout_secs with
      | .error e => .error (.testFailed cmd e)
      | .ok res => .ok (pushOutput s1 res, acc.2)
    else
      .ok (bumpSkipped (pushOutput s1
        (placeholderCmd (str "(skipped-not-allowlisted) " ++ cmd) none)), acc.2)

/-- The `apply_steps` loop over the step list. -/
def applyAll (env : ExecEnv) (root_abs : AbsPath) (dry_run : Bool)
    (cfg : Config) (task : Text) :
    List Step → ApplySummary × FS → Except ApplyErr (ApplySummary × FS)
  | [], acc => .ok acc
  | s :: rest, acc =>
    match applyStep env root_abs dry_run cfg task acc s with
    | .error e => .error e
    | .ok acc' => applyAll env root_abs dry_run cfg task rest acc'

/-- `apply::apply_steps`. -/
def apply_steps (env : ExecEnv) (root_abs : AbsPath) (steps : List Step)
    (dry_run : Bool) (cfg : Config) (task : Text) (fs : FS) :
    Except ApplyErr (ApplySummary × FS) :=
  applyAll env root_abs dry_run cfg task steps (emptySummary, fs)

/-! ## previewer (src/patch/mod.rs)

Terminal colorization (the `colored` crate) depends on the ambient terminal,
so it is modelled by a `ColorEnv` of text transformers. -/

/-- The colorization environment (`.red()`, `.green()`, `.dimmed()`). -/
structure ColorEnv where
  red : Text → Text
  green : Text → Text
  dimmed : Text → Text

/-- `patch::ChangeKind`. -/
inductive ChangeKind where
  | create
  | update
  | delete
  | command
  | test
deriving DecidableEq, Repr

/-- `patch::Preview`. -/
structure Preview where
  kind : ChangeKind
  path : Option AbsPath
  bytes_before : Option Nat
  bytes_after : Option Nat
  diff_snippet : Option Text
  command : Option Text
deriving DecidableEq, Repr

/-- Fuel-indexed loop of `short_diff`: synchronized two-pointer walk emitting
a removed line then an added line on each mismatch, bounded by `maxL` output
lines (checked at the top of each iteration).  Fuel (never exhausted with
the value used below) makes the recursion structural. -/
def shortDiffGo (cenv : ColorEnv) (maxL : Nat) :
    Nat → List Text → List Text → Nat → List Text
  | 0, _, _, _ => []
  | f + 1, olds, news, k =>
    if olds = ([] : List Text) ∧ news = ([] : List Text) then []
    else if maxL ≤ k then []
    else
      match olds, news with
      | o :: os, n :: ns =>
        if o = n then shortDiffGo cenv maxL f os ns k
        else
          cenv.red (str "- " ++ o) :: cenv.green (str "+ " ++ n) ::
            shortDiffGo cenv maxL f os ns (k + 2)
      | o :: os, [] =>
        cenv.red (str "- " ++ o) :: shortDiffGo cenv maxL f os [] (k + 1)
      | [], n :: ns =>
        cenv.green (str "+ " ++ n) :: shortDiffGo cenv maxL f [] ns (k + 1)
      | [], [] => []

/-- `patch::short_diff`. -/
def short_diff (cenv : ColorEnv) (old new_content : Text) (maxL : Nat) : Text :=
  let olds := rustLines old
  let news := rustLines new_content
  let outL := shortDiffGo cenv maxL (olds.length + news.length) olds news 0
  let outL' :=
    if maxL ≤ outL.length then outL ++ [cenv.dimmed (str "... (diff truncated)")]
    else outL
  joinNl outL'

/-- `root.join(path)` as the previewer performs it: a purely lexical append
of the relative path's raw segments (no `.`/`..` normalization and no
allowlist — the previewer, unlike the applier, does not call `safe_join`). -/
def previewJoin (root : AbsPath) (rel : Text) : AbsPath :=
  let segs := (splitOnChar '/' rel).filter (fun s => s ≠ ([] : Text))
  if startsWithL (str "/") rel then segs else root ++ segs

/-- One iteration of the `preview` loop. -/
def previewStep (cenv : ColorEnv) (root : AbsPath) (additive : Bool)
    (user_task : Text) (fs : FS) (s : Step) : Preview :=
  match s with
  | .create _ _ path _ content =>
    let abs := previewJoin root path
    let before := (fsGet fs abs).map byteLen
    let after := content.map byteLen
    let diff :=
      match fsGet fs abs, content with
      | some old, some new_model =>
        some (short_diff cenv old
          (preserve_use_client (some old) new_model user_task) 80)
      | _, _ => none
    ⟨.create, some abs, before, after, diff, none⟩
  | .update _ _ path _ content =>
    let abs := previewJoin root path
    let before := (fsGet fs abs).map byteLen
    match fsGet fs abs, content with
    | some old, some new_model =>
      let merged_base :=
        if additive then additive_merge old new_model else new_model
      let merged := preserve_use_client (some old) merged_base user_task
      ⟨.update, some abs, before, some (byteLen merged),
        some (short_diff cenv old merged 120), none⟩
    | _, _ => ⟨.update, some abs, before, none, none, none⟩
  | .delete _ _ path =>
    let abs := previewJoin root path
    let before :=
      match fsGet fs abs with
      | some c => some (byteLen c)
      | none => some 0
    ⟨.delete, some abs, before, some 0, none, none⟩
  | .command _ _ cmd _ => ⟨.command, none, none, none, none, some cmd⟩
  | .test _ _ cmd => ⟨.test, none, none, none, none, some cmd⟩

/-- `patch::preview`: non-mutating rendering of every step; `additive` is
classified once from the user task, as in the source. -/
def preview (cenv : ColorEnv) (root : AbsPath) (plan : Plan)
    (user_task : Text) (fs : FS) : List Preview :=
  plan.steps.map (previewStep cenv root (is_additive_task user_task) user_task fs)

/-! ## Concrete fixtures used by witnesses and counterexamples -/

/-- An execution oracle under which no program can be spawned (adequate for
plans without command steps). -/
def env0 : ExecEnv := ⟨fun _ _ _ => .notFound, fun _ _ => .notFound⟩

/-- A colorless terminal. -/
def cenv0 : ColorEnv := ⟨id, id, id⟩

/-- Config for the `a.txt` scenarios: root `/proj`, `a.txt` allowlisted. -/
def cfgA : Config := ⟨str "/proj", 5, [str "a.txt"], []⟩

/-- The plan of the claimed scenario:
`[Create("a.txt","hi"), Update("a.txt", content="hello")]`. -/
def planC6 : List Step :=
  [Step.create (str "i1") (str "t1") (str "a.txt") none (some (str "hi")),
   Step.update (str "i2") (str "t2") (str "a.txt") none (some (str "hello"))]

/-- An update of `a.txt` to content `y`. -/
def upd4 : Step := Step.update (str "i") (str "t") (str "a.txt") none (some (str "y"))

/-- A filesystem where `/proj/a.txt` holds `x`. -/
def fs4 : FS := [([str "proj", str "a.txt"], str "x")]

/-- Config allowlisting only the command `x`. -/
def cfgE : Config := ⟨str "/proj", 0, [], [str "x"]⟩

/-- An oracle whose direct spawn succeeds with status 0 after a reported
wall-clock duration of 9999999 ms. -/
def envE : ExecEnv :=
  ⟨fun _ _ _ => .ok ⟨some 0, true, str "out", [], 9999999⟩, fun _ _ => .notFound⟩

/-! # Theorems -/

/-! ## C1 — safe_join never leaves the root -/

/-- Claim C1: for every resolved project root, relative path string and
allowlist — including paths with enough `..` segments to escape and paths
whose target does not exist (the model is purely lexical, so existence on
disk never enters) — whenever `safe_join` returns `Ok`, the resulting
absolute path still starts with the resolved root; every traversal that
would leave the root is therefore rejected with an error before any step
executes. -/
theorem C1_safe_join_stays_under_root (root_abs : AbsPath) (rel : Text)
    (allowlist : List Text) (out : AbsPath)
    (h : safe_join root_abs rel allowlist = .ok out) :
    startsWithL root_abs out = true := by
  unfold safe_join at h
  by_cases hb : (allowlist.any fun p =>
      p = rel || startsWithL (dropAllTrailing '\\' (dropAllTrailing '/' p)) rel)
        = false
  · simp [hb] at h
  · rw [Bool.not_eq_false] at hb
    simp only [hb] at h
    cases hW : safeJoinWalk root_abs rel root_abs (parseRel rel) with
    | error e => simp [hW] at h
    | ok o =>
      simp only [hW] at h
      by_cases hS : startsWithL root_abs o = true
      · simp only [hS, if_true] at h
        cases h
        exact hS
      · simp [hS] at h

/-- Witness for C1 at a concrete traversal `src/../a.txt`. -/
theorem C1_witness :
    safe_join [str "proj"] (str "src/../a.txt") [str "src"] =
      .ok [str "proj", str "a.txt"] ∧
    startsWithL [str "proj"] [str "proj", str "a.txt"] = true :=
  ⟨by decide,
   C1_safe_join_stays_under_root [str "proj"] (str "src/../a.txt")
     [str "src"] [str "proj", str "a.txt"] (by decide)⟩

/-! ## C2 — command allowlist matching is exact, not prefix -/

/-- Counterexample to C2: the claim asserts
`is_allowed("npm install foo", ["npm install"])` is true, but the code's
`is_command_allowed` is an exact-equality test and rejects it. -/
theorem C2_counterexample :
    is_command_allowed (str "npm install foo") [str "npm install"] = false := by
  decide

/-- Claim C2 (amended): command allowlist matching is exact-only — a command
is allowed iff it literally equals an allowlist entry; with allowlist
`["npm install"]` both `"npm install foo"` and `"npm installer"` are
rejected while the exact string is accepted. -/
theorem C2_exact_only_matching :
    (∀ (cmd : Text) (allowlist : List Text),
      is_command_allowed cmd allowlist = true ↔ cmd ∈ allowlist) ∧
    is_command_allowed (str "npm install") [str "npm install"] = true ∧
    is_command_allowed (str "npm installer") [str "npm install"] = false := by
  refine ⟨fun cmd allowlist => ?_, by decide, by decide⟩
  simp [is_command_allowed, List.any_eq_true]

/-! ## C5 — the executor does not enforce its timeout -/

/-- Counterexample to C5: under an oracle reporting a 9999999 ms run, a
0-second budget still yields a plain `Ok` result — no timeout is enforced
and no timed-out error exists (`CmdErr` has no such constructor). -/
theorem C5_counterexample :
    run_command_allowlisted envE (str "x") cfgE none 0 =
      run_command_allowlisted envE (str "x") cfgE none 86400 ∧
    run_command_allowlisted envE (str "x") cfgE none 0 =
      .ok ⟨str "x", some (str "/proj"), 0, 0, str "out", [], 9999999, false⟩ :=
  ⟨rfl, by decide⟩

/-- Claim C5 (amended): `run_command_allowlisted` accepts a wall-clock
timeout argument for API compatibility but never reads it — the outcome is
identical for any two timeout values, so no command is ever reported as
timed out; a non-zero exit status is the separate `nonZeroExit` error. -/
theorem C5_timeout_ignored (env : ExecEnv) (cmd : Text) (cfg : Config)
    (cwd_opt : Option Text) (t t' : Nat) :
    run_command_allowlisted env cmd cfg cwd_opt t =
      run_command_allowlisted env cmd cfg cwd_opt t' := rfl

/-! ## C9 — merging a text with itself -/

/-- `mergeWalkF` with sufficient fuel maps equal inputs to themselves. -/
theorem mergeWalkF_self (as : List Text) :
    ∀ f, as.length ≤ f → mergeWalkF f as as = as := by
  induction as with
  | nil => intro f _; cases f <;> rfl
  | cons x rest ih =>
    intro f hf
    cases f with
    | zero => exact absurd hf (by simp)
    | succ f =>
      show mergeWalkF (f + 1) (x :: rest) (x :: rest) = x :: rest
      simp only [mergeWalkF, if_pos rfl]
      exact congrArg (x :: ·) (ih f (Nat.succ_le_succ_iff.mp hf))

/-- Claim C9: `additive_merge(old, old)` equals `old` after duplicate
collapse — precisely, it equals `old`'s own line sequence run through the
code's adjacent-duplicate-collapse pass and rejoined with `\n` (the LCS walk
of a text against itself reproduces the text's lines exactly). -/
theorem C9_merge_idempotent (old : Text) :
    additive_merge old old = joinNl (collapseDups (rustLines old)) := by
  unfold additive_merge mergeWalk
  rw [mergeWalkF_self (rustLines old) _ (Nat.le_add_right _ _)]

/-! ## C6 — the Create-then-Update scenario -/

/-- Counterexample to C6: sanitizing keeps both steps and applying leaves
`a.txt` as `hello\n` with created=1 and updated=1 as claimed, but the
summary's byte count is 7 (2 proposed bytes for `hi` plus 5 for `hello`),
not the claimed 6. -/
theorem C6_counterexample :
    (sanitize ⟨str "plan", planC6⟩).1.steps = planC6 ∧
    apply_steps env0 [str "proj"] planC6 false cfgA (str "build it") [] =
      .ok (⟨1, 1, 0, 0, 0, 0, 7, []⟩,
        [([str "proj", str "a.txt"], str "hello\n")]) ∧
    (7 : Nat) ≠ 6 := by decide

/-- Claim C6 (amended): sanitizing the plan
`[Create("a.txt","hi"), Update("a.txt", content="hello")]` keeps both steps
with no warnings, and applying it leaves `a.txt` containing `hello\n` with a
summary of created=1, updated=1 and bytes_written=7 — the byte counter sums
the proposed content lengths (2 + 5), not the bytes on disk. -/
theorem C6_scenario :
    sanitize ⟨str "plan", planC6⟩ = (⟨str "plan", planC6⟩, []) ∧
    apply_steps env0 [str "proj"] planC6 false cfgA (str "build it") [] =
      .ok (⟨1, 1, 0, 0, 0, 0, 7, []⟩,
        [([str "proj", str "a.txt"], str "hello\n")]) := by decide

/-! ## C7 — duplicate-update deduplication -/

/-- Counterexample to C7: with two Update steps for the same path that both
carry content (a tie), `sanitize` keeps the first occurrence, not the later
one the claim requires. -/
theorem C7_counterexample :
    sanitize ⟨str "s",
      [Step.update (str "i1") (str "t1") (str "p") none (some (str "x")),
       Step.update (str "i2") (str "t2") (str "p") none (some (str "y"))]⟩ =
    (⟨str "s",
      [Step.update (str "i1") (str "t1") (str "p") none (some (str "x"))]⟩,
     [warnDupUpdate (str "p")]) := by decide

/-- Claim C7 (amended): among two valid Update steps for the same path,
`sanitize` keeps exactly one — a step carrying `content` is preferred over
one that does not regardless of order, and ties are broken by keeping the
EARLIER occurrence; the dropped duplicate is warned about. -/
theorem C7_keep_one_update (sm i1 t1 i2 t2 p : Text) (pa1 c1 pa2 c2 : Option Text)
    (h1 : c1 ≠ none ∨ pa1 ≠ none) (h2 : c2 ≠ none ∨ pa2 ≠ none) :
    sanitize ⟨sm, [Step.update i1 t1 p pa1 c1, Step.update i2 t2 p pa2 c2]⟩ =
      (⟨sm, [if c1 = none ∧ c2.isSome then Step.update i2 t2 p pa2 c2
             else Step.update i1 t1 p pa1 c1]⟩,
       [warnDupUpdate p]) := by
  rcases c1 with _ | v1 <;> rcases c2 with _ | v2 <;>
    rcases pa1 with _ | w1 <;> rcases pa2 with _ | w2 <;>
      simp_all [sanitize, sanitizePass1, sanitizePass2, aGet, aPut, idxHasContent]

/-- Witness for C7 at a concrete pair: an earlier patch-only update loses to
a later content-carrying update. -/
theorem C7_witness :
    sanitize ⟨str "s",
      [Step.update (str "i1") (str "t1") (str "p") (some (str "q")) none,
       Step.update (str "i2") (str "t2") (str "p") none (some (str "y"))]⟩ =
    (⟨str "s",
      [Step.update (str "i2") (str "t2") (str "p") none (some (str "y"))]⟩,
     [warnDupUpdate (str "p")]) := by
  have h := C7_keep_one_update (str "s") (str "i1") (str "t1") (str "i2")
    (str "t2") (str "p") (some (str "q")) none none (some (str "y"))
    (Or.inr (by decide)) (Or.inl (by decide))
  simpa using h

/-! ## C8 — warnings for dropped steps -/

/-- Counterexample to C8: a single content-less Update is dropped with TWO
warnings (one from each sanitizer pass), not exactly one. -/
theorem C8_counterexample :
    sanitize ⟨str "s", [Step.update (str "i") (str "t") (str "p") none none]⟩ =
      (⟨str "s", []⟩, [warnNoContent (str "p"), warnDupUpdate (str "p")]) ∧
    (sanitize ⟨str "s",
      [Step.update (str "i") (str "t") (str "p") none none]⟩).2.length = 2 := by
  decide

/-- Claim C8 (amended): every dropped step produces at least one warning
naming its path, and warnings never abort processing (`sanitize` always
returns a cleaned plan) — but a content-less Update is double-warned, once
by each pass, while duplicate creates and deletes get exactly one warning. -/
theorem C8_warnings_per_drop :
    (∀ sm i t p, sanitize ⟨sm, [Step.update i t p none none]⟩ =
      (⟨sm, []⟩, [warnNoContent p, warnDupUpdate p])) ∧
    (∀ sm i1 t1 i2 t2 p l1 c1 l2 c2,
      sanitize ⟨sm, [Step.create i1 t1 p l1 c1, Step.create i2 t2 p l2 c2]⟩ =
        (⟨sm, [Step.create i1 t1 p l1 c1]⟩, [warnDupCreate p])) ∧
    (∀ sm i1 t1 i2 t2 p,
      sanitize ⟨sm, [Step.delete i1 t1 p, Step.delete i2 t2 p]⟩ =
        (⟨sm, [Step.delete i1 t1 p]⟩, [warnDupDelete p])) := by
  refine ⟨fun sm i t p => ?_, fun sm i1 t1 i2 t2 p l1 c1 l2 c2 => ?_,
    fun sm i1 t1 i2 t2 p => ?_⟩ <;>
    simp [sanitize, sanitizePass1, sanitizePass2, aGet, aPut, idxHasContent]

/-! ## C3 — the merge never drops (non-degenerate) old lines -/

/-- Every element of the old line list survives the merge walk (the cursor
only advances past an old line by emitting it). -/
theorem mem_mergeWalkF (f : Nat) :
    ∀ (as bs : List Text) (x : Text), x ∈ as → x ∈ mergeWalkF f as bs := by
  induction f with
  | zero =>
    intro as bs x hx
    cases as with
    | nil => simp at hx
    | cons a as' =>
      cases bs with
      | nil => exact hx
      | cons b bs' => exact hx
  | succ f ih =>
    intro as bs x hx
    cases as with
    | nil => simp at hx
    | cons a as' =>
      cases bs with
      | nil => exact hx
      | cons b bs' =>
        by_cases hab : a = b
        · simp only [mergeWalkF, if_pos hab]
          rcases List.mem_cons.mp hx with rfl | hx'
          · exact List.mem_cons_self _ _
          · exact List.mem_cons_of_mem _ (ih as' bs' x hx')
        · by_cases hc : lcsLen (a :: as') bs' ≤ lcsLen as' (b :: bs')
          · simp only [mergeWalkF, if_neg hab, if_pos hc]
            rcases List.mem_cons.mp hx with rfl | hx'
            · exact List.mem_cons_self _ _
            · exact List.mem_cons_of_mem _ (ih as' (b :: bs') x hx')
          · simp only [mergeWalkF, if_neg hab, if_neg hc]
            exact List.mem_cons_of_mem _ (ih (a :: as') bs' x hx)

/-- Every line the merge walk emits comes from one of the two inputs. -/
theorem mergeWalkF_subset (f : Nat) :
    ∀ (as bs : List Text) (x : Text), x ∈ mergeWalkF f as bs →
      x ∈ as ∨ x ∈ bs := by
  induction f with
  | zero =>
    intro as bs x hx
    cases as with
    | nil => exact Or.inr hx
    | cons a as' =>
      cases bs with
      | nil => exact Or.inl hx
      | cons b bs' => exact Or.inl hx
  | succ f ih =>
    intro as bs x hx
    cases as with
    | nil => exact Or.inr hx
    | cons a as' =>
      cases bs with
      | nil => exact Or.inl hx
      | cons b bs' =>
        by_cases hab : a = b
        · simp only [mergeWalkF, if_pos hab] at hx
          rcases List.mem_cons.mp hx with rfl | hx'
          · exact Or.inl (List.mem_cons_self _ _)
          · rcases ih as' bs' x hx' with h | h
            · exact Or.inl (List.mem_cons_of_mem _ h)
            · exact Or.inr (List.mem_cons_of_mem _ h)
        · by_cases hc : lcsLen (a :: as') bs' ≤ lcsLen as' (b :: bs')
          · simp only [mergeWalkF, if_neg hab, if_pos hc] at hx
            rcases List.mem_cons.mp hx with rfl | hx'
            · exact Or.inl (List.mem_cons_self _ _)
            · rcases ih as' (b :: bs') x hx' with h | h
              · exact Or.inl (List.mem_cons_of_mem _ h)
              · exact Or.inr h
          · simp only [mergeWalkF, if_neg hab, if_neg hc] at hx
            rcases List.mem_cons.mp hx with rfl | hx'
            · exact Or.inr (List.mem_cons_self _ _)
            · rcases ih (a :: as') bs' x hx' with h | h
              · exact Or.inl h
              · exact Or.inr (List.mem_cons_of_mem _ h)

/-- An element of a list is still present (as a value) after collapsing
adjacent duplicates. -/
theorem mem_collapseDups :
    ∀ (l : List Text) (x : Text), x ∈ l → x ∈ collapseDups l := by
  intro l
  induction l with
  | nil => intro x hx; simp at hx
  | cons y rest ih =>
    intro x hx
    cases rest with
    | nil => simpa [collapseDups] using hx
    | cons z rest' =>
      by_cases hyz : y = z
      · simp only [collapseDups, if_pos hyz]
        rcases List.mem_cons.mp hx with rfl | hx'
        · exact ih x (hyz ▸ List.mem_cons_self _ _)
        · exact ih x hx'
      · simp only [collapseDups, if_neg hyz]
        rcases List.mem_cons.mp hx with rfl | hx'
        · exact List.mem_cons_self _ _
        · exact List.mem_cons_of_mem _ (ih x hx')

/-- Collapsing adjacent duplicates introduces no new values. -/
theorem collapseDups_subset :
    ∀ (l : List Text) (x : Text), x ∈ collapseDups l → x ∈ l := by
  intro l
  induction l with
  | nil => intro x hx; simp [collapseDups] at hx
  | cons y rest ih =>
    intro x hx
    cases rest with
    | nil => simpa [collapseDups] using hx
    | cons z rest' =>
      by_cases hyz : y = z
      · simp only [collapseDups, if_pos hyz] at hx
        exact List.mem_cons_of_mem _ (ih x hx)
      · simp only [collapseDups, if_neg hyz] at hx
        rcases List.mem_cons.mp hx with rfl | hx'
        · exact List.mem_cons_self _ _
        · exact List.mem_cons_of_mem _ (ih x hx')

/-- `splitNl` always produces at least one piece. -/
theorem splitNl_ne_nil (t : Text) : splitNl t ≠ [] := by
  cases t with
  | nil => simp [splitNl]
  | cons c cs =>
    by_cases hc : c = '\n'
    · simp [splitNl, hc]
    · rcases hs : splitNl cs with _ | ⟨p, ps⟩ <;> simp [splitNl, hc, hs]

/-- No piece of `splitNl` contains a newline. -/
theorem mem_splitNl_no_nl :
    ∀ (t : Text) (p : Text), p ∈ splitNl t → '\n' ∉ p := by
  intro t
  induction t with
  | nil =>
    intro p hp
    simp only [splitNl, List.mem_singleton] at hp
    subst hp
    simp
  | cons c cs ih =>
    intro p hp
    by_cases hc : c = '\n'
    · simp only [splitNl, if_pos hc] at hp
      rcases List.mem_cons.mp hp with rfl | hp'
      · simp
      · exact ih p hp'
    · simp only [splitNl, if_neg hc] at hp
      rcases hs : splitNl cs with _ | ⟨q, qs⟩
      · exact absurd hs (splitNl_ne_nil cs)
      · rw [hs] at hp
        rcases List.mem_cons.mp hp with rfl | hp'
        · intro hmem
          rcases List.mem_cons.mp hmem with rfl | h2
          · exact hc rfl
          · exact ih q (by rw [hs]; exact List.mem_cons_self _ _) h2
        · exact ih p (by rw [hs]; exact List.mem_cons_of_mem _ hp')

/-- A newline-free text splits to the single piece itself. -/
theorem splitNl_single (p : Text) (h : '\n' ∉ p) : splitNl p = [p] := by
  induction p with
  | nil => rfl
  | cons c cs ih =>
    have hc : ¬(c = '\n') := fun e => h (e ▸ List.mem_cons_self c cs)
    simp only [splitNl, if_neg hc]
    rw [ih (fun hm => h (List.mem_cons_of_mem _ hm))]

/-- Splitting after prepending a newline-free piece and a separator. -/
theorem splitNl_append_cons (p t : Text) (h : '\n' ∉ p) :
    splitNl (p ++ '\n' :: t) = p :: splitNl t := by
  induction p with
  | nil => simp [splitNl]
  | cons c cs ih =>
    have hc : ¬(c = '\n') := fun e => h (e ▸ List.mem_cons_self c cs)
    simp only [List.cons_append, splitNl, if_neg hc, List.append_eq]
    rw [ih (fun hm => h (List.mem_cons_of_mem _ hm))]

/-- `splitNl` inverts `joinNl` on a nonempty list of newline-free pieces. -/
theorem splitNl_joinNl :
    ∀ (L : List Text), L ≠ [] → (∀ p ∈ L, '\n' ∉ p) →
      splitNl (joinNl L) = L := by
  intro L
  induction L with
  | nil => intro h; exact absurd rfl h
  | cons p rest ih =>
    intro _ hnl
    cases rest with
    | nil =>
      show splitNl (joinNl [p]) = [p]
      exact splitNl_single p (hnl p (List.mem_cons_self _ _))
    | cons q rest' =>
      show splitNl (p ++ '\n' :: joinNl (q :: rest')) = p :: (q :: rest')
      rw [splitNl_append_cons p _ (hnl p (List.mem_cons_self _ _))]
      rw [ih (by simp) (fun x hx => hnl x (List.mem_cons_of_mem _ hx))]

/-- `stripCr` is the identity on lines that do not end with `\r`. -/
theorem stripCr_eq_self (l : Text) (h : l.getLast? ≠ some '\r') :
    stripCr l = l := by
  unfold stripCr
  cases hg : l.getLast? with
  | none => rfl
  | some c =>
    have hc : ¬(c = '\r') := fun e => h (by rw [hg, e])
    simp [hc]

/-- `stripCr` never adds characters. -/
theorem stripCr_subset (q : Text) (x : Char) (h : x ∈ stripCr q) : x ∈ q := by
  unfold stripCr at h
  split at h
  · split at h
    · exact List.dropLast_subset _ h
    · exact h
  · exact h

/-- Lines produced by `rustLines` contain no newline. -/
theorem rustLines_no_nl (t l : Text) (hl : l ∈ rustLines t) : '\n' ∉ l := by
  obtain ⟨q, hq, rfl⟩ := List.mem_map.mp hl
  have hq' : q ∈ splitNl t := by
    simp only [splitTermNl] at hq
    by_cases hlast : (splitNl t).getLast? = some ([] : Text)
    · rw [if_pos hlast] at hq
      exact List.dropLast_subset _ hq
    · rw [if_neg hlast] at hq
      exact hq
  exact fun hmem => mem_splitNl_no_nl t q hq' (stripCr_subset q _ hmem)

/-- Membership survives `dropLast` for an element different from the last. -/
theorem mem_dropLast_of_ne_last {α : Type} :
    ∀ (L : List α) (x l : α), L.getLast? = some x → l ∈ L → l ≠ x →
      l ∈ L.dropLast := by
  intro L
  induction L with
  | nil => intro x l hg hl _; simp at hl
  | cons a rest ih =>
    intro x l hg hl hne
    cases rest with
    | nil =>
      simp only [List.getLast?_singleton, Option.some.injEq] at hg
      simp only [List.mem_singleton] at hl
      exact absurd (hl.trans hg) hne
    | cons b rest' =>
      have hg' : (b :: rest').getLast? = some x := by
        rw [← hg]; rfl
      have hdl : (a :: b :: rest').dropLast = a :: (b :: rest').dropLast := rfl
      rw [hdl]
      rcases List.mem_cons.mp hl with rfl | h'
      · exact List.mem_cons_self _ _
      · exact List.mem_cons_of_mem _ (ih x l hg' h' hne)

/-- Counterexample to C3: the empty line of `old = "\n"` is present in `old`
but absent from `additive_merge(old, "")` — joining the merged lines with
`\n` erases a lone empty line, so a line of `old` can be dropped. -/
theorem C3_counterexample :
    ([] : Text) ∈ rustLines (str "\n") ∧
    ¬(([] : Text) ∈ rustLines (additive_merge (str "\n") (str ""))) := by
  decide

/-- Claim C3 (amended): for all texts, every line of `old` that is non-empty
and does not end in a carriage return is present in
`additive_merge(old, new)` — proposed deletions of such lines are ignored.
(Empty lines can vanish at the final join, and a line ending in `\r` is
re-normalized by the CRLF handling of the line splitter.) -/
theorem C3_merge_keeps_old_lines (old new_content l : Text)
    (h1 : l ∈ rustLines old) (h2 : l ≠ []) (h3 : l.getLast? ≠ some '\r') :
    l ∈ rustLines (additive_merge old new_content) := by
  unfold additive_merge
  have hmem : l ∈ collapseDups (mergeWalk (rustLines old) (rustLines new_content)) :=
    mem_collapseDups _ _ (mem_mergeWalkF _ _ _ _ h1)
  set cleaned := collapseDups (mergeWalk (rustLines old) (rustLines new_content))
    with hcl
  have hclne : cleaned ≠ [] := fun e => by rw [e] at hmem; simp at hmem
  have hnonl : ∀ p ∈ cleaned, '\n' ∉ p := by
    intro p hp
    have hp' := collapseDups_subset _ _ hp
    rcases mergeWalkF_subset _ _ _ _ hp' with ha | hb
    · exact rustLines_no_nl old p ha
    · exact rustLines_no_nl new_content p hb
  have hsplit : splitNl (joinNl cleaned) = cleaned :=
    splitNl_joinNl cleaned hclne hnonl
  show l ∈ rustLines (joinNl cleaned)
  simp only [rustLines, splitTermNl]
  rw [hsplit]
  by_cases hlast : cleaned.getLast? = some ([] : Text)
  · rw [if_pos hlast]
    exact List.mem_map.mpr
      ⟨l, mem_dropLast_of_ne_last cleaned ([] : Text) l hlast hmem h2,
        stripCr_eq_self l h3⟩
  · rw [if_neg hlast]
    exact List.mem_map.mpr ⟨l, hmem, stripCr_eq_self l h3⟩

/-- Witness for C3 at a concrete input. -/
theorem C3_witness :
    str "a" ∈ rustLines (str "a\nb") ∧
    str "a" ∈ rustLines (additive_merge (str "a\nb") (str "c")) :=
  ⟨by decide,
   C3_merge_keeps_old_lines (str "a\nb") (str "c") (str "a") (by decide)
     (by decide) (by decide)⟩

/-! ## C10 — every written file is newline-terminated -/

/-- `write_atomic`'s hygiene rule: the stored contents always end in `\n`. -/
theorem endsWithT_ensureNl (t : Text) : endsWithT (ensureNl t) (str "\n") = true := by
  unfold ensureNl
  by_cases h : endsWithT t (str "\n") = true
  · rw [if_pos h]
    exact h
  · rw [if_neg h]
    have hs : str "\n" = ['\n'] := rfl
    rw [hs]
    simp [endsWithT, startsWithL, List.reverse_append]

/-- A binding of `fsPut fs p c` is an old binding or the new one. -/
theorem mem_fsPut (fs : FS) (p : AbsPath) (c : Text) (x : AbsPath × Text)
    (h : x ∈ fsPut fs p c) : x ∈ fs ∨ x = (p, c) := by
  induction fs with
  | nil =>
    simp only [fsPut, List.mem_singleton] at h
    exact Or.inr h
  | cons kv rest ih =>
    obtain ⟨q, c'⟩ := kv
    by_cases hq : q = p
    · simp only [fsPut, if_pos hq] at h
      rcases List.mem_cons.mp h with rfl | h'
      · exact Or.inr rfl
      · exact Or.inl (List.mem_cons_of_mem _ h')
    · simp only [fsPut, if_neg hq] at h
      rcases List.mem_cons.mp h with rfl | h'
      · exact Or.inl (List.mem_cons_self _ _)
      · rcases ih h' with h2 | h2
        · exact Or.inl (List.mem_cons_of_mem _ h2)
        · exact Or.inr h2

/-- Deleting introduces no new bindings. -/
theorem mem_fsDel (fs : FS) (p : AbsPath) (x : AbsPath × Text)
    (h : x ∈ fsDel fs p) : x ∈ fs := by
  induction fs with
  | nil => simp [fsDel] at h
  | cons kv rest ih =>
    obtain ⟨q, c'⟩ := kv
    by_cases hq : q = p
    · simp only [fsDel, if_pos hq] at h
      exact List.mem_cons_of_mem _ h
    · simp only [fsDel, if_neg hq] at h
      rcases List.mem_cons.mp h with rfl | h'
      · exact List.mem_cons_self _ _
      · exact List.mem_cons_of_mem _ (ih h')

/-- Any binding present after one applier step (not in dry-run) either was
already present or holds newline-terminated contents. -/
theorem applyStep_writes_newline (env : ExecEnv) (root : AbsPath)
    (cfg : Config) (task : Text) (acc : ApplySummary × FS) (s : Step)
    (acc' : ApplySummary × FS)
    (h : applyStep env root false cfg task acc s = .ok acc') :
    ∀ x, x ∈ acc'.2 → x ∈ acc.2 ∨ endsWithT x.2 (str "\n") = true := by
  intro x hx
  cases s with
  | create id title path lang content =>
    simp only [applyStep] at h
    cases hsj : safe_join root path cfg.path_allowlist with
    | error e => rw [hsj] at h; simp at h
    | ok abs =>
      rw [hsj] at h
      cases content with
      | none => simp at h
      | some data =>
        cases h
        rcases mem_fsPut acc.2 abs (ensureNl data) x hx with h2 | h2
        · exact Or.inl h2
        · rw [h2]
          exact Or.inr (endsWithT_ensureNl data)
  | update id title path patch content =>
    simp only [applyStep] at h
    cases hsj : safe_join root path cfg.path_allowlist with
    | error e => rw [hsj] at h; simp at h
    | ok abs =>
      rw [hsj] at h
      dsimp only at h
      by_cases hnp : content = none ∧ patch = none
      · rw [if_pos hnp] at h
        cases h
        exact Or.inl hx
      · rw [if_neg hnp] at h
        cases content with
        | none =>
          cases h
          exact Or.inl hx
        | some nc =>
          dsimp only at h
          by_cases hex : (fsGet acc.2 abs).isSome = true
          · rw [if_pos hex] at h
            cases h
            rcases mem_fsPut acc.2 abs _ x hx with h2 | h2
            · exact Or.inl h2
            · rw [h2]
              exact Or.inr (endsWithT_ensureNl _)
          · rw [if_neg hex] at h
            cases h
            rcases mem_fsPut acc.2 abs (ensureNl nc) x hx with h2 | h2
            · exact Or.inl h2
            · rw [h2]
              exact Or.inr (endsWithT_ensureNl nc)
  | delete id title path =>
    simp only [applyStep] at h
    cases hsj : safe_join root path cfg.path_allowlist with
    | error e => rw [hsj] at h; simp at h
    | ok abs =>
      rw [hsj] at h
      dsimp only at h
      by_cases hex : (fsGet acc.2 abs).isSome = true
      · rw [if_pos hex] at h
        cases h
        exact Or.inl (mem_fsDel acc.2 abs x hx)
      · rw [if_neg hex] at h
        cases h
        exact Or.inl hx
  | command id title cmd cwdOpt =>
    simp only [applyStep] at h
    cases hrun : run_command_allowlisted env cmd cfg cwdOpt cfg.timeout_secs with
    | error e => rw [hrun] at h; simp at h
    | ok res =>
      rw [hrun] at h
      cases h
      exact Or.inl hx
  | test id title cmd =>
    simp only [applyStep] at h
    by_cases hal : (cfg.command_allowlist.any fun c => c = cmd) = true
    · rw [if_pos hal] at h
      cases hrun : run_command_allowlisted env cmd cfg none cfg.timeout_secs with
      | error e => rw [hrun] at h; simp at h
      | ok res =>
        rw [hrun] at h
        cases h
        exact Or.inl hx
    · rw [if_neg hal] at h
      cases h
      exact Or.inl hx

/-- The invariant of `applyStep_writes_newline`, carried along the whole
step list. -/
theorem applyAll_writes_newline (env : ExecEnv) (root : AbsPath)
    (cfg : Config) (task : Text) :
    ∀ (steps : List Step) (acc acc' : ApplySummary × FS),
      applyAll env root false cfg task steps acc = .ok acc' →
      ∀ x, x ∈ acc'.2 → x ∈ acc.2 ∨ endsWithT x.2 (str "\n") = true := by
  intro steps
  induction steps with
  | nil =>
    intro acc acc' h x hx
    cases h
    exact Or.inl hx
  | cons s rest ih =>
    intro acc acc' h x hx
    unfold applyAll at h
    cases hst : applyStep env root false cfg task acc s with
    | error e => rw [hst] at h; simp at h
    | ok a1 =>
      rw [hst] at h
      rcases ih a1 acc' h x hx with h2 | h2
      · exact applyStep_writes_newline env root cfg task acc s a1 hst x h2
      · exact Or.inr h2

/-- Claim C10: every file the applier writes (Create, Update, and
Update-as-Create, all through `write_atomic`) ends with a trailing newline:
after a non-dry run, any binding of the resulting filesystem either already
existed untouched or has newline-terminated contents, because `write_atomic`
appends a `\n` when the proposed content lacks one — so bytes on disk can
exceed the proposed content's byte length. -/
theorem C10_written_files_newline_terminated (env : ExecEnv) (root : AbsPath)
    (steps : List Step) (cfg : Config) (task : Text) (fs : FS)
    (s : ApplySummary) (fs' : FS) (p : AbsPath) (c : Text)
    (h : apply_steps env root steps false cfg task fs = .ok (s, fs'))
    (hm : (p, c) ∈ fs') :
    (p, c) ∈ fs ∨ endsWithT c (str "\n") = true :=
  applyAll_writes_newline env root cfg task steps (emptySummary, fs) (s, fs')
    h (p, c) hm

/-- Witness for C10: creating `a.txt` with the newline-less content `hi`
stores `hi\n`. -/
theorem C10_witness :
    (([str "proj", str "a.txt"], str "hi\n") ∈ ([] : FS)) ∨
      endsWithT (str "hi\n") (str "\n") = true :=
  C10_written_files_newline_terminated env0 [str "proj"]
    [Step.create (str "i1") (str "t1") (str "a.txt") none (some (str "hi"))]
    cfgA (str "build it") [] ⟨1, 0, 0, 0, 0, 0, 2, []⟩
    [([str "proj", str "a.txt"], str "hi\n")]
    [str "proj", str "a.txt"] (str "hi\n") (by decide) (by decide)

/-! ## C4 — previewer vs applier on Update steps -/

/-- When the old file has no top-of-file use-client directive,
`preserve_use_client` is the identity on the proposed content. -/
theorem preserve_use_client_id (old x task : Text)
    (h : has_use_client_top old = false) :
    preserve_use_client (some old) x task = x := by
  simp [preserve_use_client, h]

/-- Counterexample to C4: for the Update of `a.txt` (holding `x`) to `y`
under the additive task `add a box`, the previewer reports bytes_after 3
(it merges regardless of file extension, yielding `x\ny`), while the
applier — whose merge gate also requires a `.ts`/`.tsx`/`.js` path — writes
`y\n` and counts 1 byte: the previewed content differs from the applied
one. -/
theorem C4_counterexample :
    (preview cenv0 [str "proj"] ⟨str "s", [upd4]⟩ (str "add a box") fs4).map
        Preview.bytes_after = [some 3] ∧
    apply_steps env0 [str "proj"] [upd4] false cfgA (str "add a box") fs4 =
      .ok (⟨0, 1, 0, 0, 0, 0, 1, []⟩,
        [([str "proj", str "a.txt"], str "y\n")]) ∧
    byteLen (str "y\n") = 2 ∧ (3 : Nat) ≠ 2 ∧ (3 : Nat) ≠ 1 := by decide

/-- Claim C4 (amended): for an Update step carrying content against an
existing file, the previewer's post-merge content (whose byte length it
reports as bytes_after) equals the applier's final content for the same step
and disk state — PROVIDED the old file carries no use-client directive and
the step is outside the two points of divergence (the applier's merge gate
additionally requires a `.ts`/`.tsx`/`.js` extension, and the two apply
merge and directive-preservation in opposite orders); the applier then
writes exactly that content plus `write_atomic`'s trailing newline, and
counts its pre-newline byte length. -/
theorem C4_preview_matches_apply (cenv : ColorEnv) (env : ExecEnv)
    (root ap : AbsPath) (cfg : Config) (task sm sid stitle path : Text)
    (patch : Option Text) (content old : Text) (fs : FS)
    (h1 : safe_join root path cfg.path_allowlist = .ok ap)
    (h2 : previewJoin root path = ap)
    (h3 : fsGet fs ap = some old)
    (h4 : has_use_client_top old = false)
    (h5 : is_additive_task task = false ∨
      (endsWithT path (str ".tsx") || endsWithT path (str ".ts") ||
        endsWithT path (str ".js")) = true) :
    (preview cenv root ⟨sm, [Step.update sid stitle path patch (some content)]⟩
        task fs).map Preview.bytes_after =
      [some (byteLen (if is_additive_task task &&
          (endsWithT path (str ".tsx") || endsWithT path (str ".ts") ||
            endsWithT path (str ".js")) then additive_merge old content
        else content))] ∧
    apply_steps env root [Step.update sid stitle path patch (some content)]
        false cfg task fs =
      .ok (⟨0, 1, 0, 0, 0, 0,
          byteLen (if is_additive_task task &&
            (endsWithT path (str ".tsx") || endsWithT path (str ".ts") ||
              endsWithT path (str ".js")) then additive_merge old content
          else content), []⟩,
        fsPut fs ap (ensureNl (if is_additive_task task &&
            (endsWithT path (str ".tsx") || endsWithT path (str ".ts") ||
              endsWithT path (str ".js")) then additive_merge old content
          else content))) := by
  constructor
  · simp only [preview, List.map_cons, List.map_nil, previewStep]
    rw [h2, h3]
    dsimp only
    rw [preserve_use_client_id old _ task h4]
    rcases h5 with h5 | h5
    · rw [h5]
      simp
    · rw [h5]
      cases hA : is_additive_task task <;> simp
  · simp only [apply_steps, applyAll, applyStep]
    rw [h1]
    dsimp only
    rw [if_neg (by simp)]
    rw [h3]
    simp [preserve_use_client_id old content task h4, bumpUpdated,
      emptySummary, write_atomic, applyAll]

/-- Witness for C4 at a concrete agreeing instance (non-additive task
`build it`, old `x`, proposed `y`): both sides produce `y`. -/
theorem C4_witness :
    (preview cenv0 [str "proj"] ⟨str "s", [upd4]⟩ (str "build it") fs4).map
        Preview.bytes_after =
      [some (byteLen (if is_additive_task (str "build it") &&
          (endsWithT (str "a.txt") (str ".tsx") ||
            endsWithT (str "a.txt") (str ".ts") ||
            endsWithT (str "a.txt") (str ".js")) then
            additive_merge (str "x") (str "y")
        else str "y"))] ∧
    apply_steps env0 [str "proj"] [upd4] false cfgA (str "build it") fs4 =
      .ok (⟨0, 1, 0, 0, 0, 0,
          byteLen (if is_additive_task (str "build it") &&
            (endsWithT (str "a.txt") (str ".tsx") ||
              endsWithT (str "a.txt") (str ".ts") ||
              endsWithT (str "a.txt") (str ".js")) then
              additive_merge (str "x") (str "y")
          else str "y"), []⟩,
        fsPut fs4 [str "proj", str "a.txt"]
          (ensureNl (if is_additive_task (str "build it") &&
            (endsWithT (str "a.txt") (str ".tsx") ||
              endsWithT (str "a.txt") (str ".ts") ||
              endsWithT (str "a.txt") (str ".js")) then
              additive_merge (str "x") (str "y")
          else str "y"))) :=
  C4_preview_matches_apply cenv0 env0 [str "proj"] [str "proj", str "a.txt"]
    cfgA (str "build it") (str "s") (str "i") (str "t") (str "a.txt") none
    (str "y") (str "x") fs4 (by decide) (by decide) (by decide) (by decide)
    (Or.inl (by decide))

end Vibe
